import Mathlib

/-!
A shallow embedding of the snip_man interactive TUI (`src/tui.rs`) together
with the parts of `src/snippets.rs` it relies on.  Rust strings are modelled
as lists of characters; the external fuzzy matcher
(`SkimMatcherV2::fuzzy_match`) is an abstract parameter of type `Matcher`;
the external store's `delete_snippet` call is an oracle of type `StoreResult`
consumed by the event step.
-/

/-- Rust `String` / `&str`, modelled as a list of characters. -/
abbrev Str := List Char

/-- `Snippet` from `src/snippets.rs`: id, description, tags, code. -/
structure Snippet where
  id : Str
  description : Str
  tags : List Str
  code : Str
  deriving DecidableEq, Inhabited, Repr

/-- The external fuzzy matcher, applied as `m haystack query`
(Rust: `matcher.fuzzy_match(&haystack, query)`). -/
abbrev Matcher := Str → Str → Option Int

/-- The per-snippet best score computed inside `App::filter_snippets`
(`src/tui.rs`): start from `None`, then fold in the description, the tags
joined by a single space, and the code body, keeping the maximum of the
defined matches. -/
def bestScore (m : Matcher) (query : Str) (s : Snippet) : Option Int :=
  let best0 : Option Int := none
  let best1 : Option Int :=
    match m s.description query with
    | some sc => some sc
    | none => best0
  let best2 : Option Int :=
    match m (List.intercalate [' '] s.tags) query with
    | some sc => some (match best1 with | some b => max b sc | none => sc)
    | none => best1
  match m s.code query with
  | some sc => some (match best2 with | some b => max b sc | none => sc)
  | none => best2

/-- The `scored` vector of `(corpus index, score)` pairs built by
`App::filter_snippets` before sorting. -/
def scoredList (m : Matcher) (q : Str) (corpus : List Snippet) : List (Nat × Int) :=
  corpus.enum.filterMap fun p => (bestScore m q p.2).map fun sc => (p.1, sc)

/-- `scored` after `scored.sort_by(|a, b| b.1.cmp(&a.1))`: a stable sort by
descending score (Rust slice `sort_by` is stable). -/
def rankedScores (m : Matcher) (q : Str) (corpus : List Snippet) : List (Nat × Int) :=
  (scoredList m q corpus).mergeSort fun a b => decide (b.2 ≤ a.2)

/-- The new `visible_snippets` value computed by `App::filter_snippets`:
identity order for the empty query, otherwise the indices of the ranked
scored list. -/
def visibleOrder (m : Matcher) (q : Str) (corpus : List Snippet) : List Nat :=
  if q.isEmpty then List.range corpus.length
  else (rankedScores m q corpus).map Prod.fst

/-- The maximum of two optional scores, defined when either side is. -/
def optMax (a b : Option Int) : Option Int :=
  match a, b with
  | none, b => b
  | some x, none => some x
  | some x, some y => some (max x y)

/-- The overall score as the spec words it: "the maximum of the defined
field scores" over description, tags joined by a single space, and code. -/
def overallScoreSpec (m : Matcher) (q : Str) (s : Snippet) : Option Int :=
  optMax (optMax (m s.description q) (m (List.intercalate [' '] s.tags) q)) (m s.code q)

/-- `Mode` from `src/tui.rs`. -/
inductive Mode where
  | normal
  | confirmDelete
  deriving DecidableEq, Repr

/-- The `App` struct from `src/tui.rs`.  `selected` models
`list_state.selected()`; the matcher lives outside the state as a
parameter; `preview_scroll` is the `u16` field as a natural number
(kept below 2^16 by the operations that write it). -/
structure App where
  all_snippets : List Snippet
  visible_snippets : List Nat
  selected : Option Nat
  search_query : Str
  mode : Mode
  preview_full : Bool
  preview_scroll : Nat
  status_msg : Option Str
  deriving DecidableEq, Repr

/-- `App::new`. -/
def App.new (snippets : List Snippet) : App :=
  { all_snippets := snippets
    visible_snippets := List.range snippets.length
    selected := none
    search_query := []
    mode := .normal
    preview_full := false
    preview_scroll := 0
    status_msg := none }

/-- The state at the top of `run_tui`'s loop: `App::new` followed by the
unconditional `app.list_state.select(Some(0))`. -/
def initApp (snippets : List Snippet) : App :=
  { App.new snippets with selected := some 0 }

/-- `App::filter_snippets`: rebuild `visible_snippets` from the current
query, reset the selection to `Some(0)`/`None` by emptiness, reset the
preview scroll. -/
def App.filterSnippets (m : Matcher) (a : App) : App :=
  let visible := visibleOrder m a.search_query a.all_snippets
  { a with
    visible_snippets := visible
    selected := if visible.isEmpty then none else some 0
    preview_scroll := 0 }

/-- `App::next`. -/
def App.next (a : App) : App :=
  let i : Nat :=
    match a.selected with
    | some i =>
      if a.visible_snippets.isEmpty then 0
      else if a.visible_snippets.length - 1 ≤ i then 0
      else i + 1
    | none => 0
  { a with selected := some i, preview_scroll := 0 }

/-- `App::previous`. -/
def App.previous (a : App) : App :=
  let i : Nat :=
    match a.selected with
    | some i =>
      if a.visible_snippets.isEmpty then 0
      else if i = 0 then a.visible_snippets.length - 1
      else i - 1
    | none => 0
  { a with selected := some i, preview_scroll := 0 }

/-- `App::selected_snippet`. -/
def App.selectedSnippet (a : App) : Option Snippet :=
  (a.selected.bind fun i => a.visible_snippets[i]?).bind fun idx => a.all_snippets[idx]?

/-- Strip one trailing carriage return, as Rust `str::lines` does per line. -/
def stripCR (l : Str) : Str :=
  if l.getLast? = some '\r' then l.dropLast else l

/-- Rust `str::lines`: split at newlines, no trailing empty line for a
final line terminator, each line stripped of a trailing `\r`. -/
def rustLines (s : Str) : List Str :=
  let parts := s.splitOn '\n'
  let parts := if parts.getLast? = some [] then parts.dropLast else parts
  parts.map stripCR

/-- Key events distinguished by the `run_tui` event match. -/
inductive KeyEvent where
  | char (c : Char)
  | enter
  | down
  | up
  | pageDown
  | pageUp
  | backspace
  | esc
  | other
  deriving DecidableEq, Repr

/-- Outcome of the external `delete_snippet` store call. -/
inductive StoreResult where
  | ok
  | err (e : Str)
  deriving DecidableEq, Repr

/-- Result of one loop iteration: continue, or break out of the loop
(`exit` carries the `selected_code` value at the break). -/
inductive StepRes where
  | cont (a : App)
  | exit (a : App) (code : Option Str)
  deriving DecidableEq, Repr

/-- The state carried by a step result. -/
def StepRes.app : StepRes → App
  | .cont a => a
  | .exit a _ => a

/-- One iteration of `run_tui`'s loop in `Mode::Normal`. -/
def stepNormal (m : Matcher) (a : App) (e : KeyEvent) : StepRes :=
  match e with
  | .char c =>
    if c = 'q' then .exit a none
    else if c = 'p' then
      .cont { a with preview_full := !a.preview_full, preview_scroll := 0 }
    else if c = 'd' then
      .cont { a with mode := .confirmDelete
                     status_msg := some "Confirm delete? press y or n".toList }
    else
      .cont (App.filterSnippets m { a with search_query := a.search_query ++ [c] })
  | .enter =>
    match a.selected with
    | some sel =>
      match a.visible_snippets[sel]? with
      | some idx => .exit a (some (a.all_snippets.getD idx default).code)
      | none => .cont a
    | none => .cont a
  | .down => .cont a.next
  | .up => .cont a.previous
  | .pageDown =>
    let maxLines : Nat :=
      match a.selectedSnippet with
      | some s => (rustLines s.code).length
      | none => 0
    let maxScroll := (maxLines - 1) % 65536
    .cont { a with preview_scroll := min (min (a.preview_scroll + 5) 65535) maxScroll }
  | .pageUp => .cont { a with preview_scroll := a.preview_scroll - 5 }
  | .backspace =>
    .cont (App.filterSnippets m { a with search_query := a.search_query.dropLast })
  | _ => .cont a

/-- One iteration of `run_tui`'s loop in `Mode::ConfirmDelete`; `d` is the
outcome of the external `delete_snippet` call, consulted only on confirm. -/
def stepConfirm (m : Matcher) (d : StoreResult) (a : App) (e : KeyEvent) : StepRes :=
  match e with
  | .char c =>
    if c = 'y' then
      let a' : App :=
        match a.selected with
        | some sel =>
          match a.visible_snippets[sel]? with
          | some idx =>
            let id := (a.all_snippets.getD idx default).id
            match d with
            | .ok =>
              let a1 := { a with all_snippets := a.all_snippets.filter fun s => decide (s.id ≠ id) }
              let a2 := a1.filterSnippets m
              let a3 :=
                if a2.visible_snippets.isEmpty then { a2 with selected := none }
                else { a2 with selected := some (min sel (a2.visible_snippets.length - 1)) }
              { a3 with status_msg := some "Deleted snippet.".toList }
            | .err e => { a with status_msg := some ("Delete failed: ".toList ++ e) }
          | none => a
        | none => a
      .cont { a' with mode := .normal }
    else if c = 'n' then
      .cont { a with mode := .normal, status_msg := some "Canceled delete.".toList }
    else .cont a
  | .esc =>
    .cont { a with mode := .normal, status_msg := some "Canceled delete.".toList }
  | _ => .cont a

/-- One iteration of `run_tui`'s event loop. -/
def step (m : Matcher) (d : StoreResult) (a : App) (e : KeyEvent) : StepRes :=
  match a.mode with
  | .normal => stepNormal m a e
  | .confirmDelete => stepConfirm m d a e

/-- The states of one session that the loop can observe, starting at
`initApp` and following `cont` results for arbitrary events and store
outcomes. -/
inductive Reachable (m : Matcher) (corpus : List Snippet) : App → Prop where
  | init : Reachable m corpus (initApp corpus)
  | step {a a' : App} (e : KeyEvent) (d : StoreResult) :
      Reachable m corpus a → step m d a e = .cont a' → Reachable m corpus a'

/-- The preview text built by `ui` (`src/tui.rs`): full code, or the first
ten lines with an ellipsis marker when truncated. -/
def previewText (a : App) : Str :=
  match a.selectedSnippet with
  | some s =>
    if a.preview_full then s.code
    else
      let lines := rustLines s.code
      if 10 < lines.length then
        List.intercalate ['\n'] (lines.take 10) ++ ['\n', '…']
      else
        List.intercalate ['\n'] lines
  | none => "No snippet selected.".toList

/-- Outcome of the code after the loop in `run_tui`: either a panic (the
`expect` calls on the clipboard) or a normal return value. -/
inductive SessionEnd where
  | panic (msg : Str)
  | done (result : Option Str)
  deriving DecidableEq, Repr

/-- The post-loop clipboard block of `run_tui`: when a selection was made it
initializes the clipboard and writes the text, aborting the process via
`expect` on either failure; otherwise it returns `Ok(None)`. -/
def finishSession (selectedCode : Option Str) (clipboardInitOk : Bool) (setTextOk : Bool) :
    SessionEnd :=
  match selectedCode with
  | some code =>
    if !clipboardInitOk then .panic "Failed to initialize clipboard".toList
    else if !setTextOk then .panic "Failed to copy text to clipboard".toList
    else .done (some code)
  | none => .done none

/-- How many times the post-loop block invokes `Clipboard::set_text`:
once when a selection was made and clipboard initialization succeeded,
never otherwise. -/
def setTextCalls (selectedCode : Option Str) (clipboardInitOk : Bool) : Nat :=
  match selectedCode with
  | some _ => if clipboardInitOk then 1 else 0
  | none => 0

/-! ### Helper lemmas about the scorer and the scored list -/

theorem bestScore_eq_overallScoreSpec (m : Matcher) (q : Str) (s : Snippet) :
    bestScore m q s = overallScoreSpec m q s := by
  unfold bestScore overallScoreSpec optMax
  cases m s.description q <;> cases m (List.intercalate [' '] s.tags) q <;>
    cases m s.code q <;> simp

theorem mem_scoredList {m : Matcher} {q : Str} {corpus : List Snippet}
    {idx : Nat} {sc : Int} :
    (idx, sc) ∈ scoredList m q corpus ↔
      ∃ sn, corpus[idx]? = some sn ∧ bestScore m q sn = some sc := by
  simp only [scoredList, List.mem_filterMap, Option.map_eq_some']
  constructor
  · rintro ⟨⟨i, sn⟩, hmem, sc', hbs, heq⟩
    cases heq
    exact ⟨sn, List.mk_mem_enum_iff_getElem?.mp hmem, hbs⟩
  · rintro ⟨sn, hget, hbs⟩
    exact ⟨(idx, sn), List.mk_mem_enum_iff_getElem?.mpr hget, sc, hbs, rfl⟩

theorem mem_ranked_iff_mem_scored {m : Matcher} {q : Str} {corpus : List Snippet}
    {p : Nat × Int} :
    p ∈ rankedScores m q corpus ↔ p ∈ scoredList m q corpus := by
  simp [rankedScores]

theorem scoredList_pairwise_fst (m : Matcher) (q : Str) (corpus : List Snippet) :
    (scoredList m q corpus).Pairwise fun a b => a.1 < b.1 := by
  have henum : (corpus.enum).Pairwise (fun a b : Nat × Snippet => a.1 < b.1) := by
    have h := List.pairwise_lt_range corpus.length
    rw [← List.enum_map_fst, List.pairwise_map] at h
    exact h
  rw [scoredList, List.pairwise_filterMap]
  refine henum.imp ?_
  rintro ⟨i, sn⟩ ⟨j, sn'⟩ hij x hx y hy
  simp only [Option.mem_def, Option.map_eq_some'] at hx hy
  obtain ⟨sc, -, rfl⟩ := hx
  obtain ⟨sc', -, rfl⟩ := hy
  exact hij

theorem pair_sublist_of_pairwise_lt {α : Type} {key : α → Nat} {l : List α}
    (hp : l.Pairwise fun a b => key a < key b) {a b : α}
    (ha : a ∈ l) (hb : b ∈ l) (hab : key a < key b) :
    [a, b].Sublist l := by
  induction l with
  | nil => cases ha
  | cons x t ih =>
    rcases List.mem_cons.mp ha with rfl | ha'
    · rcases List.mem_cons.mp hb with rfl | hb'
      · exact absurd hab (lt_irrefl _)
      · exact List.Sublist.cons₂ a (List.singleton_sublist.mpr hb')
    · rcases List.mem_cons.mp hb with rfl | hb'
      · have hba := (List.pairwise_cons.mp hp).1 a ha'
        omega
      · exact List.Sublist.cons x (ih (List.pairwise_cons.mp hp).2 ha' hb')

theorem leScore_trans : ∀ a b c : Nat × Int,
    decide (b.2 ≤ a.2) = true → decide (c.2 ≤ b.2) = true → decide (c.2 ≤ a.2) = true := by
  intro a b c hab hbc
  simp only [decide_eq_true_eq] at *
  exact le_trans hbc hab

theorem leScore_total : ∀ a b : Nat × Int,
    (decide (b.2 ≤ a.2) || decide (a.2 ≤ b.2)) = true := by
  intro a b
  rcases le_total a.2 b.2 with h | h <;> simp [h]

theorem rankedScores_sorted (m : Matcher) (q : Str) (corpus : List Snippet) :
    (rankedScores m q corpus).Pairwise fun a b => b.2 ≤ a.2 := by
  have h := List.sorted_mergeSort leScore_trans leScore_total (scoredList m q corpus)
  exact h.imp (by intro a b hab; exact of_decide_eq_true hab)

/-! ### C1 -/

/-- C1: for every corpus and non-empty query, an index is present in
VisibleOrder iff some of the three fields (description, tags joined by a
single space, code) has a defined fuzzy score for that query, and the score
used for ranking equals the maximum of the defined field scores. -/
theorem c1_visible_iff_some_field_score (m : Matcher) (q : Str) (corpus : List Snippet)
    (hq : q ≠ []) :
    (∀ idx : Nat, idx ∈ visibleOrder m q corpus ↔
        ∃ sn, corpus[idx]? = some sn ∧ (overallScoreSpec m q sn).isSome) ∧
    (∀ (idx : Nat) (sc : Int), (idx, sc) ∈ scoredList m q corpus ↔
        ∃ sn, corpus[idx]? = some sn ∧ overallScoreSpec m q sn = some sc) := by
  have hscored : ∀ (idx : Nat) (sc : Int), (idx, sc) ∈ scoredList m q corpus ↔
      ∃ sn, corpus[idx]? = some sn ∧ overallScoreSpec m q sn = some sc := by
    intro idx sc
    rw [mem_scoredList]
    simp only [bestScore_eq_overallScoreSpec]
  refine ⟨?_, hscored⟩
  intro idx
  have hne : q.isEmpty = false := by simpa using hq
  rw [visibleOrder, hne]
  simp only [Bool.false_eq_true, if_false, List.mem_map]
  constructor
  · rintro ⟨⟨i, sc⟩, hp, rfl⟩
    rw [mem_ranked_iff_mem_scored, hscored] at hp
    obtain ⟨sn, hg, ho⟩ := hp
    exact ⟨sn, hg, by simp [ho]⟩
  · rintro ⟨sn, hg, hsome⟩
    obtain ⟨sc, hsc⟩ := Option.isSome_iff_exists.mp hsome
    exact ⟨(idx, sc), mem_ranked_iff_mem_scored.mpr ((hscored idx sc).mpr ⟨sn, hg, hsc⟩), rfl⟩

/-- A matcher that scores every haystack 1, for concrete evaluations. -/
def mAlways : Matcher := fun _ _ => some 1

/-- A matcher that never matches, for concrete evaluations. -/
def mNever : Matcher := fun _ _ => none

/-- A concrete snippet. -/
def snipA : Snippet :=
  { id := ['a'], description := "read file".toList,
    tags := ["fs".toList, "io".toList], code := "fs.readFile(path)".toList }

/-- A second concrete snippet. -/
def snipB : Snippet :=
  { id := ['b'], description := "write file".toList,
    tags := ["fs".toList], code := "fs.writeFile(path, data)".toList }

theorem c1_witness :
    (['i'] : Str) ≠ [] ∧
    ((∀ idx : Nat, idx ∈ visibleOrder mAlways ['i'] [snipA] ↔
        ∃ sn, [snipA][idx]? = some sn ∧ (overallScoreSpec mAlways ['i'] sn).isSome) ∧
     (∀ (idx : Nat) (sc : Int), (idx, sc) ∈ scoredList mAlways ['i'] [snipA] ↔
        ∃ sn, [snipA][idx]? = some sn ∧ overallScoreSpec mAlways ['i'] sn = some sc)) :=
  ⟨by decide, c1_visible_iff_some_field_score mAlways ['i'] [snipA] (by decide)⟩

/-! ### C2 -/

/-- C2: VisibleOrder is the identity ordering for the empty query; for a
non-empty query the ranked list is sorted by descending score, VisibleOrder
is its index projection, and two snippets with equal overall score keep
their corpus order (the two indices form a sublist of VisibleOrder in
corpus order). -/
theorem visibleOrder_nodup (m : Matcher) (q : Str) (corpus : List Snippet) :
    (visibleOrder m q corpus).Nodup := by
  rw [visibleOrder]
  split
  · exact List.nodup_range _
  · have hperm : (rankedScores m q corpus).Perm (scoredList m q corpus) :=
      List.mergeSort_perm _ _
    have hperm2 := hperm.map Prod.fst
    have hnd : ((scoredList m q corpus).map Prod.fst).Nodup := by
      have hp : ((scoredList m q corpus).map Prod.fst).Pairwise (· < ·) :=
        List.pairwise_map.mpr (scoredList_pairwise_fst m q corpus)
      exact hp.imp Nat.ne_of_lt
    exact hperm2.nodup_iff.mpr hnd

theorem c2_ranking_sorted_stable (m : Matcher) (q : Str) (corpus : List Snippet) :
    (q = [] → visibleOrder m q corpus = List.range corpus.length) ∧
    (q ≠ [] →
      (rankedScores m q corpus).Pairwise (fun a b => b.2 ≤ a.2) ∧
      visibleOrder m q corpus = (rankedScores m q corpus).map Prod.fst ∧
      (∀ (idx1 idx2 : Nat) (sc : Int) (sn1 sn2 : Snippet),
        idx1 < idx2 →
        corpus[idx1]? = some sn1 → corpus[idx2]? = some sn2 →
        bestScore m q sn1 = some sc → bestScore m q sn2 = some sc →
        [idx1, idx2].Sublist (visibleOrder m q corpus)) ∧
      (visibleOrder m q corpus).Nodup) := by
  constructor
  · intro hq
    simp [visibleOrder, hq]
  · intro hq
    have hne : q.isEmpty = false := by simpa using hq
    have hvis : visibleOrder m q corpus = (rankedScores m q corpus).map Prod.fst := by
      rw [visibleOrder, hne]
      simp
    refine ⟨rankedScores_sorted m q corpus, hvis, ?_, visibleOrder_nodup m q corpus⟩
    intro idx1 idx2 sc sn1 sn2 h12 h1 h2 hs1 hs2
    have hmem1 : (idx1, sc) ∈ scoredList m q corpus := mem_scoredList.mpr ⟨sn1, h1, hs1⟩
    have hmem2 : (idx2, sc) ∈ scoredList m q corpus := mem_scoredList.mpr ⟨sn2, h2, hs2⟩
    have hsub : [(idx1, sc), (idx2, sc)].Sublist (scoredList m q corpus) :=
      pair_sublist_of_pairwise_lt
        (scoredList_pairwise_fst m q corpus) hmem1 hmem2 h12
    have hpair : [(idx1, sc), (idx2, sc)].Pairwise
        (fun a b : Nat × Int => decide (b.2 ≤ a.2) = true) := by
      simp [List.pairwise_pair]
    have hranked : [(idx1, sc), (idx2, sc)].Sublist (rankedScores m q corpus) :=
      List.sublist_mergeSort leScore_trans leScore_total hpair hsub
    rw [hvis]
    have := hranked.map Prod.fst
    simpa using this

theorem c2_witness :
    (['i'] : Str) ≠ [] ∧ (0 : Nat) < 1 ∧
    ([snipA, snipB][0]? = some snipA) ∧ ([snipA, snipB][1]? = some snipB) ∧
    bestScore mAlways ['i'] snipA = some 1 ∧ bestScore mAlways ['i'] snipB = some 1 ∧
    [0, 1].Sublist (visibleOrder mAlways ['i'] [snipA, snipB]) ∧
    (rankedScores mAlways ['i'] [snipA, snipB]).Pairwise (fun a b => b.2 ≤ a.2) ∧
    (visibleOrder mAlways ['i'] [snipA, snipB]).Nodup ∧
    visibleOrder mAlways [] [snipA, snipB] = List.range 2 :=
  ⟨by decide, by decide, by decide, by decide, by decide, by decide,
   ((c2_ranking_sorted_stable mAlways ['i'] [snipA, snipB]).2 (by decide)).2.2.1
     0 1 1 snipA snipB (by decide) (by decide) (by decide) (by decide) (by decide),
   ((c2_ranking_sorted_stable mAlways ['i'] [snipA, snipB]).2 (by decide)).1,
   ((c2_ranking_sorted_stable mAlways ['i'] [snipA, snipB]).2 (by decide)).2.2.2,
   by simpa using (c2_ranking_sorted_stable mAlways [] [snipA, snipB]).1 rfl⟩

/-! ### C4 -/

/-- A state with an empty VisibleOrder and no selection (as after a query
with no matches). -/
def aC4 : App :=
  { all_snippets := [snipA], visible_snippets := [], selected := none,
    search_query := ['z'], mode := .normal, preview_full := false,
    preview_scroll := 0, status_msg := none }

/-- C4 counterexample: with an empty VisibleOrder, `App::next` is not a
no-op — it sets the selection to `Some(0)`. -/
theorem c4_counterexample : aC4.visible_snippets = [] ∧ aC4.next ≠ aC4 ∧
    aC4.next.selected = some 0 ∧ aC4.selected = none := by decide

/-- C4 amended: with a non-empty VisibleOrder, `next` from the last visible
index wraps to 0 and `previous` from 0 wraps to the last visible index,
resetting the preview scroll; with an empty VisibleOrder both operations
set the selection to `Some(0)` and reset the preview scroll instead of
being no-ops. -/
theorem c4_wrap_amended (a : App) :
    (a.visible_snippets ≠ [] →
      (a.selected = some (a.visible_snippets.length - 1) →
        a.next = { a with selected := some 0, preview_scroll := 0 }) ∧
      (a.selected = some 0 →
        a.previous = { a with selected := some (a.visible_snippets.length - 1),
                              preview_scroll := 0 })) ∧
    (a.visible_snippets = [] →
      a.next = { a with selected := some 0, preview_scroll := 0 } ∧
      a.previous = { a with selected := some 0, preview_scroll := 0 }) := by
  constructor
  · intro hne
    have hisE : a.visible_snippets.isEmpty = false := by simpa using hne
    constructor
    · intro hsel
      simp [App.next, hsel, hisE]
    · intro hsel
      simp [App.previous, hsel, hisE]
  · intro he
    have hisE : a.visible_snippets.isEmpty = true := by simp [he]
    cases hsel : a.selected <;>
      simp [App.next, App.previous, hisE, hsel]

/-- A state whose selection sits on the last visible index. -/
def aW4 : App :=
  { all_snippets := [snipA, snipB], visible_snippets := [0, 1], selected := some 1,
    search_query := [], mode := .normal, preview_full := false,
    preview_scroll := 3, status_msg := none }

/-- A state whose selection sits on the first visible index. -/
def aW4b : App :=
  { aW4 with selected := some 0 }

theorem c4_witness :
    aW4.visible_snippets ≠ [] ∧
    aW4.selected = some (aW4.visible_snippets.length - 1) ∧
    aW4.next = { aW4 with selected := some 0, preview_scroll := 0 } ∧
    aW4b.selected = some 0 ∧
    aW4b.previous = { aW4b with selected := some (aW4b.visible_snippets.length - 1),
                                preview_scroll := 0 } ∧
    aC4.visible_snippets = [] ∧
    aC4.next = { aC4 with selected := some 0, preview_scroll := 0 } :=
  ⟨by decide, by decide,
   ((c4_wrap_amended aW4).1 (by decide)).1 (by decide),
   by decide,
   ((c4_wrap_amended aW4b).1 (by decide)).2 (by decide),
   by decide,
   ((c4_wrap_amended aC4).2 (by decide)).1⟩

/-! ### C6 -/

/-- C6: if the store's delete call fails while confirming, the corpus, the
query, the visible order, the selection and the scroll are all unchanged,
the status message carries the error text, and the loop continues. -/
theorem c6_delete_failure (m : Matcher) (a : App) (err : Str) (sel idx : Nat)
    (hm : a.mode = .confirmDelete) (hsel : a.selected = some sel)
    (hvis : a.visible_snippets[sel]? = some idx) :
    step m (.err err) a (.char 'y') =
      .cont { a with mode := .normal,
                     status_msg := some ("Delete failed: ".toList ++ err) } := by
  simp [step, hm, stepConfirm, hsel, hvis]

/-- A state in ConfirmDelete mode with a valid selection. -/
def aW6 : App :=
  { all_snippets := [snipA, snipB], visible_snippets := [0, 1], selected := some 1,
    search_query := [], mode := .confirmDelete, preview_full := false,
    preview_scroll := 0, status_msg := some "Confirm delete? press y or n".toList }

theorem c6_witness :
    aW6.mode = .confirmDelete ∧ aW6.selected = some 1 ∧
    aW6.visible_snippets[1]? = some 1 ∧
    step mNever (.err "disk".toList) aW6 (.char 'y') =
      .cont { aW6 with mode := .normal,
                       status_msg := some ("Delete failed: ".toList ++ "disk".toList) } :=
  ⟨by decide, by decide, by decide,
   c6_delete_failure mNever aW6 "disk".toList 1 1 (by decide) (by decide) (by decide)⟩

/-! ### C8 -/

/-- A Normal-mode state with empty query and the selection moved to the
second entry. -/
def aC8 : App :=
  { all_snippets := [snipA, snipB], visible_snippets := [0, 1], selected := some 1,
    search_query := [], mode := .normal, preview_full := false,
    preview_scroll := 0, status_msg := none }

/-- C8 counterexample: backspace on an empty query is not a no-op — it
reruns the filter, which resets the selection to `Some(0)`. -/
theorem c8_counterexample :
    aC8.mode = .normal ∧ aC8.search_query = [] ∧ aC8.selected = some 1 ∧
    step mNever .ok aC8 .backspace = .cont { aC8 with selected := some 0 } ∧
    (step mNever .ok aC8 .backspace).app.selected ≠ aC8.selected := by decide

/-- C8 amended: backspace on an empty query leaves the query unchanged and
rebuilds VisibleOrder as the identity ordering (so it is unchanged in any
state where it already is the identity), but resets the selection to
`Some(0)` (`None` on an empty corpus) and the preview scroll to 0. -/
theorem c8_backspace_empty_amended (m : Matcher) (d : StoreResult) (a : App)
    (hm : a.mode = .normal) (hq : a.search_query = []) :
    step m d a .backspace =
      .cont { a with
        visible_snippets := List.range a.all_snippets.length
        selected := if a.all_snippets.length = 0 then none else some 0
        preview_scroll := 0 } := by
  have h1 : a.search_query.dropLast = [] := by rw [hq]; rfl
  by_cases hlen : a.all_snippets.length = 0 <;>
    simp [step, hm, stepNormal, App.filterSnippets, visibleOrder, h1, hq, hlen,
      List.isEmpty_iff, List.range_eq_nil]

theorem c8_witness :
    aC8.mode = .normal ∧ aC8.search_query = [] ∧
    step mNever .ok aC8 .backspace =
      .cont { aC8 with
        visible_snippets := List.range aC8.all_snippets.length
        selected := if aC8.all_snippets.length = 0 then none else some 0
        preview_scroll := 0 } :=
  ⟨by decide, by decide,
   c8_backspace_empty_amended mNever .ok aC8 (by decide) (by decide)⟩

/-! ### C9 -/

/-- A Normal-mode state with a nonzero preview scroll. -/
def aC9 : App :=
  { all_snippets := [snipA], visible_snippets := [0], selected := some 0,
    search_query := [], mode := .normal, preview_full := false,
    preview_scroll := 5, status_msg := none }

/-- C9 counterexample: the preview toggle does not leave PreviewScroll
unchanged — it resets it to 0. -/
theorem c9_counterexample :
    aC9.mode = .normal ∧ aC9.preview_scroll = 5 ∧
    step mNever .ok aC9 (.char 'p') =
      .cont { aC9 with preview_full := true, preview_scroll := 0 } ∧
    (step mNever .ok aC9 (.char 'p')).app.preview_scroll ≠ aC9.preview_scroll := by decide

/-- C9 amended: in Normal mode the `p` key toggles between the compact
preview (first ten lines, with an ellipsis marker when the code has more
than ten lines) and the full preview, leaving every other field alone
except PreviewScroll, which it resets to 0. -/
theorem c9_toggle_amended (m : Matcher) (d : StoreResult) (a : App) (s : Snippet)
    (hm : a.mode = .normal) (hsel : a.selectedSnippet = some s) :
    step m d a (.char 'p') =
      .cont { a with preview_full := !a.preview_full, preview_scroll := 0 } ∧
    (a.preview_full = true →
      previewText { a with preview_full := !a.preview_full, preview_scroll := 0 } =
        (if 10 < (rustLines s.code).length then
          List.intercalate ['\n'] ((rustLines s.code).take 10) ++ ['\n', '…']
        else List.intercalate ['\n'] (rustLines s.code))) ∧
    (a.preview_full = false →
      previewText { a with preview_full := !a.preview_full, preview_scroll := 0 } =
        s.code) := by
  have hsel' : ∀ (pf : Bool) (ps : Nat),
      ({ a with preview_full := pf, preview_scroll := ps } : App).selectedSnippet = some s := by
    intro pf ps
    simpa [App.selectedSnippet] using hsel
  refine ⟨by simp [step, hm, stepNormal], ?_, ?_⟩
  · intro hpf
    simp [previewText, hsel', hpf]
  · intro hpf
    simp [previewText, hsel', hpf]

/-- A Normal-mode state previewing `snipA` compactly. -/
def aW9 : App :=
  { all_snippets := [snipA], visible_snippets := [0], selected := some 0,
    search_query := [], mode := .normal, preview_full := false,
    preview_scroll := 0, status_msg := none }

theorem c9_witness :
    aW9.mode = .normal ∧ aW9.selectedSnippet = some snipA ∧
    (step mNever .ok aW9 (.char 'p') =
      .cont { aW9 with preview_full := !aW9.preview_full, preview_scroll := 0 } ∧
    (aW9.preview_full = true →
      previewText { aW9 with preview_full := !aW9.preview_full, preview_scroll := 0 } =
        (if 10 < (rustLines snipA.code).length then
          List.intercalate ['\n'] ((rustLines snipA.code).take 10) ++ ['\n', '…']
        else List.intercalate ['\n'] (rustLines snipA.code))) ∧
    (aW9.preview_full = false →
      previewText { aW9 with preview_full := !aW9.preview_full, preview_scroll := 0 } =
        snipA.code)) :=
  ⟨by decide, by decide,
   c9_toggle_amended mNever .ok aW9 snipA (by decide) (by decide)⟩

/-! ### C7 -/

/-- C7: the post-loop clipboard block invokes `set_text` at most once and
only when a selection was made, but when the clipboard write fails the code
aborts the process through `expect` instead of reporting the failure as
part of the session result. -/
theorem c7_clipboard_panics :
    (∀ (sel : Option Str) (init : Bool), setTextCalls sel init ≤ 1) ∧
    (∀ init : Bool, setTextCalls none init = 0) ∧
    finishSession (some "fs.readFile(path)".toList) true false =
      .panic "Failed to copy text to clipboard".toList := by
  refine ⟨?_, ?_, rfl⟩
  · rintro (_ | sel) (_ | _) <;> simp [setTextCalls]
  · intro init
    rfl

/-! ### C5 -/

theorem filter_ne_id_eq_eraseIdx :
    ∀ (l : List Snippet) (idx : Nat) (sn : Snippet),
      l[idx]? = some sn → (l.map Snippet.id).Nodup →
      l.filter (fun s => decide (s.id ≠ sn.id)) = l.eraseIdx idx := by
  intro l
  induction l with
  | nil => intro idx sn h _; simp at h
  | cons x t ih =>
    intro idx sn hget hnd
    rw [List.map_cons, List.nodup_cons] at hnd
    obtain ⟨hx, hnd'⟩ := hnd
    cases idx with
    | zero =>
      simp only [List.getElem?_cons_zero, Option.some.injEq] at hget
      subst hget
      rw [List.eraseIdx_cons_zero, List.filter_cons]
      have hfalse : (decide (x.id ≠ x.id)) = false := by simp
      rw [hfalse]
      simp only [Bool.false_eq_true, if_false]
      rw [List.filter_eq_self]
      intro s hs
      simp only [decide_eq_true_eq]
      intro heq
      exact hx (heq ▸ List.mem_map_of_mem Snippet.id hs)
    | succ n =>
      simp only [List.getElem?_cons_succ] at hget
      have hxid : (decide (x.id ≠ sn.id)) = true := by
        simp only [decide_eq_true_eq]
        intro heq
        exact hx (heq ▸ List.mem_map_of_mem Snippet.id (List.getElem?_mem hget))
      rw [List.eraseIdx_cons_succ, List.filter_cons, hxid]
      simp only [if_true]
      rw [ih n sn hget hnd']

/-- C5: confirming a delete that the store accepts removes exactly the
selected snippet from the corpus, recomputes VisibleOrder under the
unchanged query so that it no longer contains the deleted snippet, sets the
selection to `None` iff the new VisibleOrder is empty and otherwise clamps
it to the same position or the new last valid position, and sets a success
status message. -/
theorem c5_delete_success (m : Matcher) (a : App) (sel idx : Nat)
    (hm : a.mode = .confirmDelete) (hsel : a.selected = some sel)
    (hvis : a.visible_snippets[sel]? = some idx)
    (hidx : idx < a.all_snippets.length)
    (hnd : (a.all_snippets.map Snippet.id).Nodup) :
    ∃ a', step m .ok a (.char 'y') = .cont a' ∧
      a'.all_snippets = a.all_snippets.eraseIdx idx ∧
      a'.all_snippets.length + 1 = a.all_snippets.length ∧
      a'.search_query = a.search_query ∧
      a'.visible_snippets = visibleOrder m a.search_query a'.all_snippets ∧
      (∀ j ∈ a'.visible_snippets, ∀ sn, a'.all_snippets[j]? = some sn →
        sn.id ≠ (a.all_snippets.getD idx default).id) ∧
      a'.selected = (if a'.visible_snippets.isEmpty then none
        else some (min sel (a'.visible_snippets.length - 1))) ∧
      a'.status_msg = some "Deleted snippet.".toList ∧
      a'.mode = .normal := by
  have hgetD : a.all_snippets[idx]? = some (a.all_snippets.getD idx default) := by
    rw [List.getD_eq_getElem?_getD, List.getElem?_eq_getElem hidx]
    rfl
  have hfilter : a.all_snippets.filter
      (fun s => decide (s.id ≠ (a.all_snippets.getD idx default).id)) =
      a.all_snippets.eraseIdx idx :=
    filter_ne_id_eq_eraseIdx a.all_snippets idx _ hgetD hnd
  have hlen : (a.all_snippets.eraseIdx idx).length + 1 = a.all_snippets.length := by
    rw [List.length_eraseIdx_of_lt hidx]
    omega
  have hnotin : ∀ j : Nat, j ∈ visibleOrder m a.search_query (a.all_snippets.eraseIdx idx) →
      ∀ sn, (a.all_snippets.eraseIdx idx)[j]? = some sn →
      sn.id ≠ (a.all_snippets.getD idx default).id := by
    intro j _ sn hj
    have hmem : sn ∈ a.all_snippets.eraseIdx idx := List.getElem?_mem hj
    rw [← hfilter] at hmem
    have := List.of_mem_filter hmem
    simpa using this
  have hstep : step m .ok a (.char 'y') = .cont
      (let vis := visibleOrder m a.search_query (a.all_snippets.eraseIdx idx)
       { a with
         all_snippets := a.all_snippets.eraseIdx idx
         visible_snippets := vis
         selected := if vis.isEmpty then none else some (min sel (vis.length - 1))
         preview_scroll := 0
         status_msg := some "Deleted snippet.".toList
         mode := .normal }) := by
    simp only [step, hm, stepConfirm, hsel, hvis, if_pos]
    simp only [App.filterSnippets, hfilter]
    split <;> rename_i hE
    · simp only [hE, if_true]
    · simp only [hE, Bool.false_eq_true, if_false]
  refine ⟨_, hstep, ?_⟩
  refine ⟨rfl, hlen, rfl, rfl, hnotin, rfl, rfl, rfl⟩

theorem c5_witness :
    aW6.mode = .confirmDelete ∧ aW6.selected = some 1 ∧
    aW6.visible_snippets[1]? = some 1 ∧ 1 < aW6.all_snippets.length ∧
    (aW6.all_snippets.map Snippet.id).Nodup ∧
    (∃ a', step mNever .ok aW6 (.char 'y') = .cont a' ∧
      a'.all_snippets = aW6.all_snippets.eraseIdx 1 ∧
      a'.all_snippets.length + 1 = aW6.all_snippets.length ∧
      a'.search_query = aW6.search_query ∧
      a'.visible_snippets = visibleOrder mNever aW6.search_query a'.all_snippets ∧
      (∀ j ∈ a'.visible_snippets, ∀ sn, a'.all_snippets[j]? = some sn →
        sn.id ≠ (aW6.all_snippets.getD 1 default).id) ∧
      a'.selected = (if a'.visible_snippets.isEmpty then none
        else some (min 1 (a'.visible_snippets.length - 1))) ∧
      a'.status_msg = some "Deleted snippet.".toList ∧
      a'.mode = .normal) :=
  ⟨by decide, by decide, by decide, by decide, by decide,
   c5_delete_success mNever aW6 1 1 (by decide) (by decide) (by decide)
     (by decide) (by decide)⟩

/-! ### C3 -/

/-- The selection/visibility relationship the loop actually maintains:
with a non-empty VisibleOrder the selection is a valid index, with an
empty VisibleOrder it is `None` or the stray `Some(0)`. -/
def SelInv (a : App) : Prop :=
  (a.visible_snippets ≠ [] →
    ∃ i, a.selected = some i ∧ i < a.visible_snippets.length) ∧
  (a.visible_snippets = [] → a.selected = none ∨ a.selected = some 0)

theorem selInv_filterSnippets (m : Matcher) (a : App) : SelInv (a.filterSnippets m) := by
  constructor
  · intro hne
    have hne' : visibleOrder m a.search_query a.all_snippets ≠ [] := hne
    have hE : (visibleOrder m a.search_query a.all_snippets).isEmpty = false := by
      simpa using hne'
    refine ⟨0, ?_, ?_⟩
    · show (if (visibleOrder m a.search_query a.all_snippets).isEmpty then none else some 0)
        = some 0
      rw [hE]
      simp
    · show 0 < (visibleOrder m a.search_query a.all_snippets).length
      exact List.length_pos.mpr hne'
  · intro he
    have he' : visibleOrder m a.search_query a.all_snippets = [] := he
    have hE : (visibleOrder m a.search_query a.all_snippets).isEmpty = true :=
      List.isEmpty_iff.mpr he'
    left
    show (if (visibleOrder m a.search_query a.all_snippets).isEmpty then none else some 0)
      = none
    rw [hE]
    simp

theorem selInv_next (a : App) : SelInv a.next := by
  have hv : a.next.visible_snippets = a.visible_snippets := rfl
  constructor
  · intro hne
    rw [hv] at hne ⊢
    have hE : a.visible_snippets.isEmpty = false := by simpa using hne
    have hlen : 0 < a.visible_snippets.length := List.length_pos.mpr hne
    cases hsel : a.selected with
    | none => exact ⟨0, by simp [App.next, hsel], hlen⟩
    | some i =>
      by_cases hge : a.visible_snippets.length - 1 ≤ i
      · exact ⟨0, by simp [App.next, hsel, hE, hge], hlen⟩
      · exact ⟨i + 1, by simp [App.next, hsel, hE, hge], by omega⟩
  · intro he
    rw [hv] at he
    have hE : a.visible_snippets.isEmpty = true := List.isEmpty_iff.mpr he
    right
    cases hsel : a.selected with
    | none => simp [App.next, hsel]
    | some i => simp [App.next, hsel, hE]

theorem selInv_previous (a : App) (ih : SelInv a) : SelInv a.previous := by
  have hv : a.previous.visible_snippets = a.visible_snippets := rfl
  constructor
  · intro hne
    rw [hv] at hne ⊢
    have hE : a.visible_snippets.isEmpty = false := by simpa using hne
    have hlen : 0 < a.visible_snippets.length := List.length_pos.mpr hne
    cases hsel : a.selected with
    | none => exact ⟨0, by simp [App.previous, hsel], hlen⟩
    | some i =>
      obtain ⟨j, hj, hjlt⟩ := ih.1 hne
      rw [hsel] at hj
      cases hj
      by_cases h0 : i = 0
      · exact ⟨a.visible_snippets.length - 1, by simp [App.previous, hsel, hE, h0], by omega⟩
      · exact ⟨i - 1, by simp [App.previous, hsel, hE, h0], by omega⟩
  · intro he
    rw [hv] at he
    have hE : a.visible_snippets.isEmpty = true := List.isEmpty_iff.mpr he
    right
    cases hsel : a.selected with
    | none => simp [App.previous, hsel]
    | some i => simp [App.previous, hsel, hE]

theorem selInv_step {m : Matcher} {d : StoreResult} {a a' : App} {e : KeyEvent}
    (hstep : step m d a e = .cont a') (ih : SelInv a) : SelInv a' := by
  cases ha : a.mode with
  | normal =>
    simp only [step, ha] at hstep
    cases e with
    | char c =>
      simp only [stepNormal] at hstep
      split at hstep
      · simp at hstep
      · split at hstep
        · simp only [StepRes.cont.injEq] at hstep
          subst hstep
          exact ih
        · split at hstep
          · simp only [StepRes.cont.injEq] at hstep
            subst hstep
            exact ih
          · simp only [StepRes.cont.injEq] at hstep
            subst hstep
            exact selInv_filterSnippets m _
    | enter =>
      simp only [stepNormal] at hstep
      cases hsel : a.selected with
      | none =>
        simp only [hsel, StepRes.cont.injEq] at hstep
        subst hstep
        exact ih
      | some sel =>
        simp only [hsel] at hstep
        cases hvv : a.visible_snippets[sel]? with
        | none =>
          simp only [hvv, StepRes.cont.injEq] at hstep
          subst hstep
          exact ih
        | some idx =>
          simp only [hvv] at hstep
          simp at hstep
    | down =>
      simp only [stepNormal, StepRes.cont.injEq] at hstep
      subst hstep
      exact selInv_next a
    | up =>
      simp only [stepNormal, StepRes.cont.injEq] at hstep
      subst hstep
      exact selInv_previous a ih
    | pageDown =>
      simp only [stepNormal, StepRes.cont.injEq] at hstep
      subst hstep
      exact ih
    | pageUp =>
      simp only [stepNormal, StepRes.cont.injEq] at hstep
      subst hstep
      exact ih
    | backspace =>
      simp only [stepNormal, StepRes.cont.injEq] at hstep
      subst hstep
      exact selInv_filterSnippets m _
    | esc =>
      simp only [stepNormal, StepRes.cont.injEq] at hstep
      subst hstep
      exact ih
    | other =>
      simp only [stepNormal, StepRes.cont.injEq] at hstep
      subst hstep
      exact ih
  | confirmDelete =>
    simp only [step, ha] at hstep
    cases e with
    | char c =>
      simp only [stepConfirm] at hstep
      split at hstep
      · cases hsel : a.selected with
        | none =>
          simp only [hsel, StepRes.cont.injEq] at hstep
          subst hstep
          simpa [SelInv, hsel] using ih
        | some sel =>
          simp only [hsel] at hstep
          cases hvv : a.visible_snippets[sel]? with
          | none =>
            simp only [hvv, StepRes.cont.injEq] at hstep
            subst hstep
            simpa [SelInv, hsel] using ih
          | some idx =>
            simp only [hvv] at hstep
            cases d with
            | err e2 =>
              simp only [StepRes.cont.injEq] at hstep
              subst hstep
              simpa [SelInv, hsel] using ih
            | ok =>
              simp only [App.filterSnippets] at hstep
              split at hstep <;> rename_i hE
              · simp only [StepRes.cont.injEq] at hstep
                subst hstep
                constructor
                · intro hne
                  exact absurd (List.isEmpty_iff.mp hE) hne
                · intro _
                  exact Or.inl rfl
              · simp only [StepRes.cont.injEq] at hstep
                subst hstep
                constructor
                · intro hne
                  refine ⟨_, rfl, ?_⟩
                  have hne' := List.isEmpty_eq_false.mp (Bool.of_not_eq_true hE)
                  have hpos := List.length_pos.mpr hne'
                  simp only []
                  omega
                · intro he
                  exact absurd he (List.isEmpty_eq_false.mp (Bool.of_not_eq_true hE))
      · split at hstep
        · simp only [StepRes.cont.injEq] at hstep
          subst hstep
          exact ih
        · simp only [StepRes.cont.injEq] at hstep
          subst hstep
          exact ih
    | esc =>
      simp only [stepConfirm, StepRes.cont.injEq] at hstep
      subst hstep
      exact ih
    | enter =>
      simp only [stepConfirm, StepRes.cont.injEq] at hstep
      subst hstep
      exact ih
    | down =>
      simp only [stepConfirm, StepRes.cont.injEq] at hstep
      subst hstep
      exact ih
    | up =>
      simp only [stepConfirm, StepRes.cont.injEq] at hstep
      subst hstep
      exact ih
    | pageDown =>
      simp only [stepConfirm, StepRes.cont.injEq] at hstep
      subst hstep
      exact ih
    | pageUp =>
      simp only [stepConfirm, StepRes.cont.injEq] at hstep
      subst hstep
      exact ih
    | backspace =>
      simp only [stepConfirm, StepRes.cont.injEq] at hstep
      subst hstep
      exact ih
    | other =>
      simp only [stepConfirm, StepRes.cont.injEq] at hstep
      subst hstep
      exact ih

/-- C3 counterexample: with an empty corpus, the very first loop state has
`Selection = Some(0)` while VisibleOrder is empty, so "Selection is `None`
iff VisibleOrder is empty" and "`Some(i)` only if `i < VisibleOrder.len()`"
both fail on a reachable state. -/
theorem c3_counterexample :
    Reachable mNever [] (initApp []) ∧
    (initApp []).visible_snippets = [] ∧
    (initApp []).selected = some 0 :=
  ⟨Reachable.init, by decide, by decide⟩

/-- C3 amended: in every reachable state, a non-empty VisibleOrder has
`Selection = Some(i)` with `i < VisibleOrder.len()` (hence `None` implies
empty VisibleOrder), while an empty VisibleOrder leaves Selection `None` or
the stray `Some(0)` (which occurs at session start with an empty corpus and
after Up/Down with no matches); every rebuild of VisibleOrder through
`filter_snippets` resets Selection to `Some(0)` exactly when the rebuilt
VisibleOrder is non-empty (after a confirmed delete the selection is
subsequently clamped, see C5). -/
theorem c3_selection_invariant_amended (m : Matcher) (corpus : List Snippet) :
    (∀ a : App, Reachable m corpus a → SelInv a) ∧
    (∀ a : App, (a.filterSnippets m).selected =
      if (a.filterSnippets m).visible_snippets.isEmpty then none else some 0) := by
  constructor
  · intro a h
    induction h with
    | init =>
      constructor
      · intro hne
        refine ⟨0, rfl, ?_⟩
        have hlen : corpus.length ≠ 0 := by
          simpa [initApp, App.new, List.range_eq_nil] using hne
        show 0 < (List.range corpus.length).length
        simpa using Nat.pos_of_ne_zero hlen
      · intro _
        exact Or.inr rfl
    | step e d hr hstep ih => exact selInv_step hstep ih
  · intro a
    rfl

theorem c3_witness :
    Reachable mNever [snipA] (initApp [snipA]) ∧ SelInv (initApp [snipA]) ∧
    ((aC8.filterSnippets mNever).selected =
      if (aC8.filterSnippets mNever).visible_snippets.isEmpty then none else some 0) :=
  ⟨Reachable.init,
   (c3_selection_invariant_amended mNever [snipA]).1 _ Reachable.init,
   (c3_selection_invariant_amended mNever [snipA]).2 aC8⟩

/-! ### C10 -/

/-- No reserved character ever sits in the query. -/
def QInv (a : App) : Prop :=
  ∀ c ∈ a.search_query, c ≠ 'q' ∧ c ≠ 'p' ∧ c ≠ 'd'

theorem qInv_step {m : Matcher} {d : StoreResult} {a a' : App} {e : KeyEvent}
    (hstep : step m d a e = .cont a') (ih : QInv a) : QInv a' := by
  cases ha : a.mode with
  | normal =>
    simp only [step, ha] at hstep
    cases e with
    | char c =>
      simp only [stepNormal] at hstep
      split at hstep
      · simp at hstep
      · split at hstep
        · simp only [StepRes.cont.injEq] at hstep
          subst hstep
          exact ih
        · split at hstep
          · simp only [StepRes.cont.injEq] at hstep
            subst hstep
            exact ih
          · rename_i hq hp hd
            simp only [StepRes.cont.injEq] at hstep
            subst hstep
            intro ch hch
            have hch' : ch ∈ a.search_query ++ [c] := hch
            rcases List.mem_append.mp hch' with hin | hone
            · exact ih ch hin
            · have : ch = c := by simpa using hone
              subst this
              exact ⟨hq, hp, hd⟩
    | enter =>
      simp only [stepNormal] at hstep
      cases hsel : a.selected with
      | none =>
        simp only [hsel, StepRes.cont.injEq] at hstep
        subst hstep
        exact ih
      | some sel =>
        simp only [hsel] at hstep
        cases hvv : a.visible_snippets[sel]? with
        | none =>
          simp only [hvv, StepRes.cont.injEq] at hstep
          subst hstep
          exact ih
        | some idx =>
          simp only [hvv] at hstep
          simp at hstep
    | down =>
      simp only [stepNormal, StepRes.cont.injEq] at hstep
      subst hstep
      exact ih
    | up =>
      simp only [stepNormal, StepRes.cont.injEq] at hstep
      subst hstep
      exact ih
    | pageDown =>
      simp only [stepNormal, StepRes.cont.injEq] at hstep
      subst hstep
      exact ih
    | pageUp =>
      simp only [stepNormal, StepRes.cont.injEq] at hstep
      subst hstep
      exact ih
    | backspace =>
      simp only [stepNormal, StepRes.cont.injEq] at hstep
      subst hstep
      intro ch hch
      have hch' : ch ∈ a.search_query.dropLast := hch
      exact ih ch ((List.dropLast_sublist a.search_query).subset hch')
    | esc =>
      simp only [stepNormal, StepRes.cont.injEq] at hstep
      subst hstep
      exact ih
    | other =>
      simp only [stepNormal, StepRes.cont.injEq] at hstep
      subst hstep
      exact ih
  | confirmDelete =>
    simp only [step, ha] at hstep
    cases e with
    | char c =>
      simp only [stepConfirm] at hstep
      split at hstep
      · cases hsel : a.selected with
        | none =>
          simp only [hsel, StepRes.cont.injEq] at hstep
          subst hstep
          exact ih
        | some sel =>
          simp only [hsel] at hstep
          cases hvv : a.visible_snippets[sel]? with
          | none =>
            simp only [hvv, StepRes.cont.injEq] at hstep
            subst hstep
            exact ih
          | some idx =>
            simp only [hvv] at hstep
            cases d with
            | err e2 =>
              simp only [StepRes.cont.injEq] at hstep
              subst hstep
              exact ih
            | ok =>
              simp only [App.filterSnippets] at hstep
              split at hstep <;> rename_i hE <;>
                simp only [StepRes.cont.injEq] at hstep <;> subst hstep <;> exact ih
      · split at hstep
        · simp only [StepRes.cont.injEq] at hstep
          subst hstep
          exact ih
        · simp only [StepRes.cont.injEq] at hstep
          subst hstep
          exact ih
    | esc =>
      simp only [stepConfirm, StepRes.cont.injEq] at hstep
      subst hstep
      exact ih
    | enter =>
      simp only [stepConfirm, StepRes.cont.injEq] at hstep
      subst hstep
      exact ih
    | down =>
      simp only [stepConfirm, StepRes.cont.injEq] at hstep
      subst hstep
      exact ih
    | up =>
      simp only [stepConfirm, StepRes.cont.injEq] at hstep
      subst hstep
      exact ih
    | pageDown =>
      simp only [stepConfirm, StepRes.cont.injEq] at hstep
      subst hstep
      exact ih
    | pageUp =>
      simp only [stepConfirm, StepRes.cont.injEq] at hstep
      subst hstep
      exact ih
    | backspace =>
      simp only [stepConfirm, StepRes.cont.injEq] at hstep
      subst hstep
      exact ih
    | other =>
      simp only [stepConfirm, StepRes.cont.injEq] at hstep
      subst hstep
      exact ih

/-- C10: in Normal mode the printable keys `q`, `p` and `d` are consumed as
the quit, preview-toggle and delete-request actions and are never appended
to the query, so in every reachable state the query contains none of those
characters. -/
theorem c10_reserved_keys (m : Matcher) (d : StoreResult) (corpus : List Snippet) :
    (∀ a : App, a.mode = .normal →
      step m d a (.char 'q') = .exit a none ∧
      step m d a (.char 'p') =
        .cont { a with preview_full := !a.preview_full, preview_scroll := 0 } ∧
      step m d a (.char 'd') =
        .cont { a with mode := .confirmDelete
                       status_msg := some "Confirm delete? press y or n".toList }) ∧
    (∀ a : App, Reachable m corpus a →
      ∀ c ∈ a.search_query, c ≠ 'q' ∧ c ≠ 'p' ∧ c ≠ 'd') := by
  constructor
  · intro a hm
    refine ⟨?_, ?_, ?_⟩ <;> simp [step, hm, stepNormal]
  · intro a h
    induction h with
    | init =>
      intro c hc
      simp [initApp, App.new] at hc
    | step e d2 hr hstep ih => exact qInv_step hstep ih

/-- The state after typing `x` into an empty-corpus session. -/
def aX : App :=
  { all_snippets := [], visible_snippets := [], selected := none,
    search_query := ['x'], mode := .normal, preview_full := false,
    preview_scroll := 0, status_msg := none }

theorem stepX_eq : step mNever .ok (initApp []) (.char 'x') = .cont aX := by
  simp [step, initApp, App.new, stepNormal, App.filterSnippets, visibleOrder,
    rankedScores, scoredList, mNever, aX]

theorem c10_witness :
    (initApp []).mode = .normal ∧
    Reachable mNever [] aX ∧ aX.search_query = ['x'] ∧
    (∀ c ∈ aX.search_query, c ≠ 'q' ∧ c ≠ 'p' ∧ c ≠ 'd') ∧
    step mNever .ok (initApp []) (.char 'q') = .exit (initApp []) none :=
  ⟨by decide,
   Reachable.step (.char 'x') .ok Reachable.init stepX_eq,
   by decide,
   (c10_reserved_keys mNever .ok []).2 aX
     (Reachable.step (.char 'x') .ok Reachable.init stepX_eq),
   ((c10_reserved_keys mNever .ok []).1 (initApp []) (by decide)).1⟩
